import Mathlib

set_option linter.unusedVariables false

/-!
Shallow embedding of the computational core of `src/co_occurrence.py`:
the vocabulary builder `distinct_words`, the co-occurrence accumulator
`compute_co_occurrence_matrix`, and the rank reducer `reduce_to_k_dim`
(the latter modelled against the documented contract of the external
sklearn `TruncatedSVD` solver it delegates to).

Conventions of the embedding:
* a corpus is a `List (List String)` (list of documents, each a list of
  tokens), exactly the Python data model;
* the Python dict `word2Ind` built by `for i, w in enumerate(words)` over
  the duplicate-free list `words` is embedded as positional lookup in
  `words` (`dictIdx` / fallible `dictIdx?`);
* the numpy accumulator matrix is a function `Nat → Nat → Nat` built by a
  left fold of single-cell increments, one per executed `M[row, col] += 1`,
  in program order;
* Python `range(a, b)` over (possibly negative) ints is `intRange a b`;
* Python `sorted` on distinct strings is insertion sort under the
  codepoint-lexicographic order on strings (the unique sorted permutation,
  so the choice of sorting algorithm is immaterial).
-/

namespace CoOcc

/-- Order used by Python `sorted` on strings: `a` may precede `b` iff `b` is
not codepoint-lexicographically smaller than `a`.  `String.data` is the list
of characters; `<` on `List Char` is lexicographic with the codepoint order
on `Char`, and by `String.lt_iff` this relation is exactly `a ≤ b` in the
canonical string order. -/
def strOrd (a b : String) : Prop := ¬ b.data < a.data

instance : DecidableRel strOrd := fun _ _ => instDecidableNot

/-- Embedding of `distinct_words` from `src/co_occurrence.py`: collect the
set of tokens occurring anywhere in the corpus (`set` + `add`), sort it
(`sorted`), and return the sorted list together with its length. -/
def distinct_words (corpus : List (List String)) : List String × Nat :=
  let dw := corpus.flatten.dedup
  let corpus_words := List.insertionSort strOrd dw
  (corpus_words, corpus_words.length)

/-- Embedding of lookup in the Python dict built by
`for i, w in enumerate(words): word2Ind[w] = i` over a duplicate-free
`words`: the index of the first occurrence of `s` in `words` (unspecified
junk value `0` on a missing key; `dictIdx?` is the fallible version used to
express that the missing-key branch is unreachable). -/
def dictIdx : List String → String → Nat
  | [], _ => 0
  | w :: ws, s => if s = w then 0 else dictIdx ws s + 1

/-- Fallible dict lookup: `some` of the index when the key is present,
`none` (Python `KeyError`) when it is absent. -/
def dictIdx? : List String → String → Option Nat
  | [], _ => none
  | w :: ws, s => if s = w then some 0 else (dictIdx? ws s).map (· + 1)

/-- Python `range(a, b)` over integers: the list `a, a+1, …, b-1` (empty
when `b ≤ a`). -/
def intRange (a b : Int) : List Int :=
  (List.range (b - a).toNat).map (fun n : Nat => a + (n : Int))

/-- One executed increment `M[row, col] += 1` of the accumulator, as a
pointwise function update. -/
def bump (M : Nat → Nat → Nat) (p : Nat × Nat) : Nat → Nat → Nat :=
  fun r c => if r = p.1 ∧ c = p.2 then M r c + 1 else M r c

/-- The `(row, col)` pairs incremented by the two inner loops of
`compute_co_occurrence_matrix` for one document, in program order: for each
center position `i` of the document, for each `offset` in
`range(i - window_size, i + window_size + 1)`, if `offset ≠ i`,
`offset ≥ 0` and `offset < len(sentence)`, increment at
`(word2Ind[sentence[i]], word2Ind[sentence[offset]])`. -/
def increments (w2i : String → Nat) (sentence : List String)
    (window_size : Int) : List (Nat × Nat) :=
  (List.range sentence.length).flatMap fun i =>
    (intRange ((i : Int) - window_size) ((i : Int) + window_size + 1)).filterMap
      fun offset =>
        if offset ≠ (i : Int) ∧ 0 ≤ offset ∧ offset < (sentence.length : Int) then
          some (w2i (sentence.getD i ""), w2i (sentence.getD offset.toNat ""))
        else none

/-- Embedding of `compute_co_occurrence_matrix` from `src/co_occurrence.py`:
derive the vocabulary with `distinct_words`, build `word2Ind`, start from
the all-zero `num_words × num_words` matrix and perform every increment of
the nested loops (documents, center positions, window offsets) in program
order.  Returns the matrix together with the `word2Ind` lookup.  The
`window_size` is an arbitrary Python int, so it is embedded as `Int`. -/
def compute_co_occurrence_matrix (corpus : List (List String))
    (window_size : Int) : (Nat → Nat → Nat) × (String → Nat) :=
  let words := (distinct_words corpus).1
  let w2i := dictIdx words
  let M := (corpus.flatMap fun sentence =>
    increments w2i sentence window_size).foldl bump (fun _ _ => 0)
  (M, w2i)

example : distinct_words [["b", "a"], ["a", "c"]] = (["a", "b", "c"], 3) := by
  decide

example : dictIdx ["a", "b", "c"] "b" = 1 := by decide

example : (compute_co_occurrence_matrix [["a", "b"]] 1).1 0 1 = 1 := by decide

example : (compute_co_occurrence_matrix [["a", "b"]] 0).1 0 1 = 0 := by decide

/-! ## Specification-side counting

The claims describe the matrix entry `(r, c)` as the number of
(document, center position `i`, context position `j`) triples with
`j ∈ [i - w, i + w]`, `j ≠ i`, `0 ≤ j < len`, the token at `i` having
index `r` and the token at `j` having index `c`.  `windowPairs`,
`docCoCount` and `coCount` formalise exactly that count, independently of
the offset-loop shape of the code. -/

/-- In-bounds position pairs `(i, j)` of a document of length `len` with
`j` inside the closed window `[i - w, i + w]` and `j ≠ i`. -/
def windowPairs (w : Int) (len : Nat) : Finset (Nat × Nat) :=
  (Finset.range len ×ˢ Finset.range len).filter fun p =>
    p.2 ≠ p.1 ∧ (p.1 : Int) - w ≤ (p.2 : Int) ∧ (p.2 : Int) ≤ (p.1 : Int) + w

/-- Number of window pairs `(i, j)` of document `d` whose center token has
vocabulary index `r` and whose context token has vocabulary index `c`. -/
def docCoCount (w2i : String → Nat) (d : List String) (w : Int)
    (r c : Nat) : Nat :=
  ((windowPairs w d.length).filter fun p =>
    w2i (d.getD p.1 "") = r ∧ w2i (d.getD p.2 "") = c).card

/-- Number of (document, center, context) triples of the whole corpus with
center-token index `r` and context-token index `c`, using the internally
derived vocabulary. -/
def coCount (corpus : List (List String)) (w : Int) (r c : Nat) : Nat :=
  (corpus.map fun d =>
    docCoCount (dictIdx (distinct_words corpus).1) d w r c).sum

/-! ## The fold of increments counts matching increments -/

lemma bump_apply (M : Nat → Nat → Nat) (p : Nat × Nat) (r c : Nat) :
    bump M p r c = M r c + (if p.1 = r ∧ p.2 = c then 1 else 0) := by
  simp only [bump]
  by_cases h : p.1 = r ∧ p.2 = c
  · simp [h.1, h.2]
  · rw [if_neg h, if_neg, Nat.add_zero]
    rintro ⟨h1, h2⟩
    exact h ⟨h1.symm, h2.symm⟩

lemma foldl_bump_apply (ps : List (Nat × Nat)) (M₀ : Nat → Nat → Nat)
    (r c : Nat) :
    (ps.foldl bump M₀) r c
      = M₀ r c + ps.countP (fun p => decide (p.1 = r ∧ p.2 = c)) := by
  induction ps generalizing M₀ with
  | nil => simp
  | cons p ps ih =>
    rw [List.foldl_cons, ih, List.countP_cons, bump_apply]
    by_cases h : p.1 = r ∧ p.2 = c
    · simp [h]; omega
    · simp [h]

/-! ## List-level counts as Finset cardinalities -/

lemma countP_eq_card_filter_toFinset {α : Type} [DecidableEq α]
    (L : List α) (hL : L.Nodup) (p : α → Bool) :
    L.countP p = (L.toFinset.filter (fun a => p a = true)).card := by
  rw [List.countP_eq_length_filter, ← List.toFinset_card_of_nodup (hL.filter p),
    List.toFinset_filter]

lemma intRange_nodup (a b : Int) : (intRange a b).Nodup := by
  refine List.Nodup.map ?_ (List.nodup_range _)
  intro m n h
  simp only [] at h
  omega

lemma mem_intRange {a b x : Int} : x ∈ intRange a b ↔ a ≤ x ∧ x < b := by
  simp only [intRange, List.mem_map, List.mem_range]
  constructor
  · rintro ⟨k, hk, rfl⟩
    omega
  · rintro ⟨h1, h2⟩
    exact ⟨(x - a).toNat, by omega, by omega⟩

lemma intRange_toFinset (a b : Int) :
    (intRange a b).toFinset = Finset.Ico a b := by
  ext x
  rw [List.mem_toFinset, mem_intRange, Finset.mem_Ico]

lemma sum_map_range (f : Nat → Nat) (n : Nat) :
    ((List.range n).map f).sum = ∑ i ∈ Finset.range n, f i := by
  induction n with
  | zero => simp
  | succ n ih => rw [List.range_succ, Finset.sum_range_succ, List.map_append,
      List.sum_append, ih]; simp

/-! ## Offset-loop counts coincide with window-pair counts -/

lemma countP_filterMap_window (w2i : String → Nat) (d : List String) (w : Int)
    (i r c : Nat) :
    ((intRange ((i : Int) - w) ((i : Int) + w + 1)).filterMap fun offset =>
        if offset ≠ (i : Int) ∧ 0 ≤ offset ∧ offset < (d.length : Int) then
          some (w2i (d.getD i ""), w2i (d.getD offset.toNat ""))
        else none).countP (fun p => decide (p.1 = r ∧ p.2 = c))
      = ((Finset.range d.length).filter fun j =>
          j ≠ i ∧ (i : Int) - w ≤ (j : Int) ∧ (j : Int) ≤ (i : Int) + w ∧
            w2i (d.getD i "") = r ∧ w2i (d.getD j "") = c).card := by
  rw [List.countP_filterMap]
  have hfun : ∀ o : Int,
      (Option.map (fun p : Nat × Nat => decide (p.1 = r ∧ p.2 = c))
        (if o ≠ (i : Int) ∧ 0 ≤ o ∧ o < (d.length : Int) then
          some (w2i (d.getD i ""), w2i (d.getD o.toNat ""))
        else none)).getD false
      = decide ((o ≠ (i : Int) ∧ 0 ≤ o ∧ o < (d.length : Int)) ∧
          w2i (d.getD i "") = r ∧ w2i (d.getD o.toNat "") = c) := by
    intro o
    by_cases h : o ≠ (i : Int) ∧ 0 ≤ o ∧ o < (d.length : Int)
    · simp [h]
    · simp [h]
  simp only [hfun]
  rw [countP_eq_card_filter_toFinset _ (intRange_nodup _ _), intRange_toFinset]
  simp only [decide_eq_true_eq]
  refine Finset.card_nbij' (fun o : Int => o.toNat) (fun j : Nat => (j : Int))
    ?_ ?_ ?_ ?_
  · intro o ho
    rw [Finset.mem_filter, Finset.mem_Ico] at ho
    obtain ⟨⟨hlo, hhi⟩, ⟨hne, hnn, hlt⟩, hr, hc⟩ := ho
    rw [Finset.mem_filter, Finset.mem_range]
    simp only []
    refine ⟨by omega, by omega, by omega, by omega, hr, ?_⟩
    exact hc
  · intro j hj
    rw [Finset.mem_filter, Finset.mem_range] at hj
    obtain ⟨hjlen, hne, hlo, hhi, hr, hc⟩ := hj
    rw [Finset.mem_filter, Finset.mem_Ico]
    simp only []
    refine ⟨⟨by omega, by omega⟩, ⟨by omega, by omega, by omega⟩, hr, ?_⟩
    rw [Int.toNat_natCast]
    exact hc
  · intro o ho
    rw [Finset.mem_filter] at ho
    simp only []
    exact Int.toNat_of_nonneg ho.2.1.2.1
  · intro j _
    simp only []
    exact Int.toNat_natCast j

lemma docCoCount_eq_sum (w2i : String → Nat) (d : List String) (w : Int)
    (r c : Nat) :
    docCoCount w2i d w r c
      = ∑ i ∈ Finset.range d.length,
          ((Finset.range d.length).filter fun j =>
            j ≠ i ∧ (i : Int) - w ≤ (j : Int) ∧ (j : Int) ≤ (i : Int) + w ∧
              w2i (d.getD i "") = r ∧ w2i (d.getD j "") = c).card := by
  rw [docCoCount, windowPairs, Finset.filter_filter, Finset.card_filter,
    Finset.sum_product]
  refine Finset.sum_congr rfl fun i _ => ?_
  rw [Finset.card_filter]
  refine Finset.sum_congr rfl fun j _ => ?_
  refine if_congr ?_ rfl rfl
  constructor
  · rintro ⟨⟨h1, h2, h3⟩, h4, h5⟩
    exact ⟨h1, h2, h3, h4, h5⟩
  · rintro ⟨h1, h2, h3, h4, h5⟩
    exact ⟨⟨h1, h2, h3⟩, h4, h5⟩

lemma countP_increments (w2i : String → Nat) (d : List String) (w : Int)
    (r c : Nat) :
    (increments w2i d w).countP (fun p => decide (p.1 = r ∧ p.2 = c))
      = docCoCount w2i d w r c := by
  rw [increments, List.countP_flatMap, docCoCount_eq_sum, ← sum_map_range]
  congr 1
  refine List.map_congr_left fun i _ => ?_
  exact countP_filterMap_window w2i d w i r c

lemma mem_windowPairs {w : Int} {len : Nat} {p : Nat × Nat} :
    p ∈ windowPairs w len
      ↔ p.1 < len ∧ p.2 < len ∧ p.2 ≠ p.1 ∧
        (p.1 : Int) - w ≤ (p.2 : Int) ∧ (p.2 : Int) ≤ (p.1 : Int) + w := by
  rw [windowPairs, Finset.mem_filter, Finset.mem_product, Finset.mem_range,
    Finset.mem_range]
  tauto

lemma docCoCount_symm (w2i : String → Nat) (d : List String) (w : Int)
    (r c : Nat) :
    docCoCount w2i d w r c = docCoCount w2i d w c r := by
  rw [docCoCount, docCoCount]
  refine Finset.card_nbij' (fun p => (p.2, p.1)) (fun p => (p.2, p.1))
    ?_ ?_ ?_ ?_
  · intro p hp
    rw [Finset.mem_filter, mem_windowPairs] at hp
    obtain ⟨⟨h1, h2, h3, h4, h5⟩, hr, hc⟩ := hp
    rw [Finset.mem_filter, mem_windowPairs]
    simp only []
    exact ⟨⟨h2, h1, fun h => h3 h.symm, by omega, by omega⟩, hc, hr⟩
  · intro p hp
    rw [Finset.mem_filter, mem_windowPairs] at hp
    obtain ⟨⟨h1, h2, h3, h4, h5⟩, hc, hr⟩ := hp
    rw [Finset.mem_filter, mem_windowPairs]
    simp only []
    exact ⟨⟨h2, h1, fun h => h3 h.symm, by omega, by omega⟩, hr, hc⟩
  · intro p _
    rfl
  · intro p _
    rfl

lemma docCoCount_diag_even (w2i : String → Nat) (d : List String) (w : Int)
    (r : Nat) : Even (docCoCount w2i d w r r) := by
  rw [docCoCount]
  have hsplit := Finset.filter_card_add_filter_neg_card_eq_card
    (s := (windowPairs w d.length).filter fun p =>
      w2i (d.getD p.1 "") = r ∧ w2i (d.getD p.2 "") = r)
    (p := fun p : Nat × Nat => p.1 < p.2)
  have hswap : (((windowPairs w d.length).filter fun p =>
        w2i (d.getD p.1 "") = r ∧ w2i (d.getD p.2 "") = r).filter
          fun p : Nat × Nat => p.1 < p.2).card
      = (((windowPairs w d.length).filter fun p =>
        w2i (d.getD p.1 "") = r ∧ w2i (d.getD p.2 "") = r).filter
          fun p : Nat × Nat => ¬ p.1 < p.2).card := by
    refine Finset.card_nbij' (fun p => (p.2, p.1)) (fun p => (p.2, p.1))
      ?_ ?_ ?_ ?_
    · intro p hp
      rw [Finset.mem_filter, Finset.mem_filter, mem_windowPairs] at hp
      obtain ⟨⟨⟨h1, h2, h3, h4, h5⟩, hr, hc⟩, hlt⟩ := hp
      rw [Finset.mem_filter, Finset.mem_filter, mem_windowPairs]
      simp only [] at hlt ⊢
      exact ⟨⟨⟨h2, h1, fun h => h3 h.symm, by omega, by omega⟩, hc, hr⟩,
        by omega⟩
    · intro p hp
      rw [Finset.mem_filter, Finset.mem_filter, mem_windowPairs] at hp
      obtain ⟨⟨⟨h1, h2, h3, h4, h5⟩, hr, hc⟩, hlt⟩ := hp
      rw [Finset.mem_filter, Finset.mem_filter, mem_windowPairs]
      simp only [] at hlt ⊢
      exact ⟨⟨⟨h2, h1, fun h => h3 h.symm, by omega, by omega⟩, hc, hr⟩,
        by omega⟩
    · intro p _
      rfl
    · intro p _
      rfl
  refine ⟨(((windowPairs w d.length).filter fun p =>
    w2i (d.getD p.1 "") = r ∧ w2i (d.getD p.2 "") = r).filter
      fun p : Nat × Nat => p.1 < p.2).card, ?_⟩
  omega

lemma even_list_sum {l : List Nat} (h : ∀ x ∈ l, Even x) : Even l.sum := by
  induction l with
  | nil => simp
  | cons x xs ih =>
    rw [List.sum_cons]
    exact (h x (by simp)).add (ih fun y hy => h y (List.mem_cons_of_mem x hy))

/-- Each window-pair set is empty when the window size is not positive:
there is no position `j ≠ i` with `i - w ≤ j ≤ i + w`. -/
lemma docCoCount_of_nonpos (w2i : String → Nat) (d : List String) {w : Int}
    (hw : w ≤ 0) (r c : Nat) : docCoCount w2i d w r c = 0 := by
  rw [docCoCount, Finset.card_eq_zero, Finset.eq_empty_iff_forall_not_mem]
  intro p hp
  rw [Finset.mem_filter, mem_windowPairs] at hp
  obtain ⟨⟨_, _, h3, h4, h5⟩, _, _⟩ := hp
  have : p.2 = p.1 := by omega
  exact h3 this

/-- The matrix produced by the accumulation loops counts, at each entry
`(r, c)`, the (document, center, context) triples of the corpus — for every
window size, positive or not. -/
lemma M_eq_coCount (corpus : List (List String)) (w : Int) (r c : Nat) :
    (compute_co_occurrence_matrix corpus w).1 r c = coCount corpus w r c := by
  show ((corpus.flatMap fun sentence =>
      increments (dictIdx (distinct_words corpus).1) sentence w).foldl bump
      (fun _ _ => 0)) r c = coCount corpus w r c
  rw [foldl_bump_apply, List.countP_flatMap, coCount, Nat.zero_add]
  congr 1
  refine List.map_congr_left fun sentence _ => ?_
  exact countP_increments _ sentence w r c

/-! ## Properties of the vocabulary builder -/

lemma strOrd_iff_le {a b : String} : strOrd a b ↔ a ≤ b := by
  rw [strOrd]
  show ¬ (b.toList < a.toList) ↔ a ≤ b
  rw [← String.lt_iff_toList_lt]
  exact not_lt

lemma getD_mem_of_lt {l : List String} {n : Nat} (h : n < l.length) :
    l.getD n "" ∈ l := by
  rw [List.getD_eq_getElem l "" h]
  exact List.getElem_mem h

instance : IsTotal String strOrd :=
  ⟨fun a b => by rw [strOrd_iff_le, strOrd_iff_le]; exact le_total a b⟩

instance : IsTrans String strOrd :=
  ⟨fun a b c hab hbc => by
    rw [strOrd_iff_le] at hab hbc ⊢
    exact le_trans hab hbc⟩

lemma vocab_sorted_le (corpus : List (List String)) :
    (distinct_words corpus).1.Sorted (· ≤ ·) := by
  have h := List.sorted_insertionSort strOrd corpus.flatten.dedup
  exact h.imp fun hab => strOrd_iff_le.mp hab

lemma vocab_nodup (corpus : List (List String)) :
    (distinct_words corpus).1.Nodup :=
  (List.perm_insertionSort strOrd corpus.flatten.dedup).symm.nodup
    (List.nodup_dedup _)

lemma vocab_sorted_lt (corpus : List (List String)) :
    (distinct_words corpus).1.Sorted (· < ·) :=
  (vocab_sorted_le corpus).lt_of_le (vocab_nodup corpus)

lemma mem_vocab {corpus : List (List String)} {s : String} :
    s ∈ (distinct_words corpus).1 ↔ ∃ d ∈ corpus, s ∈ d := by
  rw [distinct_words]
  simp only []
  rw [(List.perm_insertionSort strOrd corpus.flatten.dedup).mem_iff,
    List.mem_dedup, List.mem_flatten]

/-- Two strictly sorted lists with the same members are equal; the
vocabulary therefore depends only on the set of tokens of the corpus. -/
lemma distinct_words_ext {c₁ c₂ : List (List String)}
    (h : c₂.flatten.toFinset = c₁.flatten.toFinset) :
    distinct_words c₁ = distinct_words c₂ := by
  have hmem : ∀ s, s ∈ (distinct_words c₁).1 ↔ s ∈ (distinct_words c₂).1 := by
    intro s
    rw [mem_vocab, mem_vocab, ← List.mem_flatten, ← List.mem_flatten,
      ← List.mem_toFinset, ← List.mem_toFinset (l := c₂.flatten), h]
  have hperm : (distinct_words c₁).1.Perm (distinct_words c₂).1 :=
    (List.perm_ext_iff_of_nodup (vocab_nodup c₁) (vocab_nodup c₂)).mpr hmem
  have heq : (distinct_words c₁).1 = (distinct_words c₂).1 :=
    List.eq_of_perm_of_sorted hperm (vocab_sorted_lt c₁) (vocab_sorted_lt c₂)
  have hlen : (distinct_words c₁).2 = (distinct_words c₁).1.length := rfl
  have hlen₂ : (distinct_words c₂).2 = (distinct_words c₂).1.length := rfl
  exact Prod.ext heq (by rw [hlen, hlen₂, heq])

/-! ## Properties of dict lookup over a duplicate-free list -/

lemma dictIdx_lt_length {l : List String} {s : String} (h : s ∈ l) :
    dictIdx l s < l.length := by
  induction l with
  | nil => cases h
  | cons w ws ih =>
    rw [dictIdx]
    by_cases hs : s = w
    · rw [if_pos hs]
      simp
    · rw [if_neg hs, List.length_cons]
      have hmem : s ∈ ws := by
        rcases List.mem_cons.mp h with h' | h'
        · exact absurd h' hs
        · exact h'
      exact Nat.succ_lt_succ (ih hmem)

lemma getD_dictIdx {l : List String} {s : String} (h : s ∈ l) :
    l.getD (dictIdx l s) "" = s := by
  induction l with
  | nil => cases h
  | cons w ws ih =>
    rw [dictIdx]
    by_cases hs : s = w
    · rw [if_pos hs]
      simp [hs]
    · rw [if_neg hs]
      have hmem : s ∈ ws := by
        rcases List.mem_cons.mp h with h' | h'
        · exact absurd h' hs
        · exact h'
      simpa using ih hmem

lemma dictIdx_inj {l : List String} {s t : String} (hs : s ∈ l) (ht : t ∈ l)
    (h : dictIdx l s = dictIdx l t) : s = t := by
  have h1 := getD_dictIdx hs
  have h2 := getD_dictIdx ht
  rw [← h1, ← h2, h]

lemma dictIdx_getD {l : List String} (hnd : l.Nodup) {n : Nat}
    (hn : n < l.length) : dictIdx l (l.getD n "") = n := by
  induction l generalizing n with
  | nil => simp at hn
  | cons w ws ih =>
    match n with
    | 0 => simp [dictIdx]
    | Nat.succ m =>
      have hm : m < ws.length := by
        rw [List.length_cons] at hn
        omega
      have hmem : ws.getD m "" ∈ ws := getD_mem_of_lt hm
      have hne : ws.getD m "" ≠ w := by
        intro hEq
        exact (List.nodup_cons.mp hnd).1 (hEq ▸ hmem)
      rw [List.getD_cons_succ, dictIdx, if_neg hne,
        ih (List.nodup_cons.mp hnd).2 hm]

lemma dictIdx_surj {l : List String} (hnd : l.Nodup) {n : Nat}
    (hn : n < l.length) : ∃ s ∈ l, dictIdx l s = n :=
  ⟨l.getD n "", getD_mem_of_lt hn, dictIdx_getD hnd hn⟩

lemma dictIdx?_isSome_iff {l : List String} {s : String} :
    (dictIdx? l s).isSome = true ↔ s ∈ l := by
  induction l with
  | nil => simp [dictIdx?]
  | cons w ws ih =>
    rw [dictIdx?]
    by_cases hs : s = w
    · simp [hs]
    · rw [if_neg hs]
      have hmap : ((dictIdx? ws s).map (· + 1)).isSome = (dictIdx? ws s).isSome := by
        cases dictIdx? ws s <;> rfl
      rw [hmap, ih, List.mem_cons]
      constructor
      · exact fun h => Or.inr h
      · rintro (h | h)
        · exact absurd h hs
        · exact h

/-! ## Rank reducer

`reduce_to_k_dim` delegates the numerical work to the external sklearn
`TruncatedSVD` (randomized algorithm, its default).  The library is not part
of this repository, so it is embedded through its documented contract:
`n_components` must be a positive integer and strictly smaller than the
number of features of the input, otherwise fitting fails with an
invalid-parameter error; on success `fit_transform` returns a matrix of
shape `(n_samples, n_components)` whose row `i` corresponds to input row
`i`, and whose entries are produced by a randomized solver that is a
deterministic function of the RNG state it draws from (`random_state` is
left at its default, so the solver draws from the global numpy RNG).  The
solver itself is kept as an explicit function parameter: nothing about its
numeric output is assumed. -/

/-- State of the global numpy random number generator. -/
structure RandomState where
  seed : Nat

/-- Model of `np.random.seed(n)`: the global RNG state is replaced by the
state determined by the seed `n`, regardless of the incoming state. -/
def npRandomSeed (n : Nat) : RandomState := RandomState.mk n

/-- Real-valued matrix with explicit shape (entries as rationals; the
floating-point values themselves play no role in any claim). -/
structure RMatrix where
  rows : Nat
  cols : Nat
  entry : Nat → Nat → ℚ

/-- Type of the randomized internal solver of `TruncatedSVD`: from the RNG
state, the input matrix, the component count and the iteration count it
produces the entries of `U * S`.  Being a function, it is deterministic in
those four arguments, which is the documented behaviour of
`sklearn.utils.extmath.randomized_svd` for a fixed RNG state. -/
def Solver : Type := RandomState → RMatrix → Nat → Nat → (Nat → Nat → ℚ)

/-- Model of `TruncatedSVD(n_components=k, n_iter=n).fit_transform(X)` with
the default randomized algorithm, from its documented contract:
`n_components` must be at least 1 and strictly less than the number of
features `X.cols`, else fitting raises; on success the result has shape
`(X.rows, k)` and its rows follow the input rows with no reindexing. -/
def truncatedSVD_fit_transform (solver : Solver) (state : RandomState)
    (X : RMatrix) (k : Int) (n_iter : Nat) : Except String RMatrix :=
  if k < 1 then
    Except.error "n_components must be a positive integer"
  else if (X.cols : Int) ≤ k then
    Except.error "n_components must be strictly less than n_features"
  else
    Except.ok (RMatrix.mk X.rows k.toNat (solver state X k.toNat n_iter))

/-- Embedding of `reduce_to_k_dim` from `src/co_occurrence.py`: reset the
global numpy RNG with the fixed seed 4355, then fit `TruncatedSVD` with
`n_components = k` and `n_iter = 10` on `M`.  The incoming global RNG state
`globalState` is discarded by the reseeding, which is why the result does
not depend on it. -/
def reduce_to_k_dim (solver : Solver) (globalState : RandomState)
    (M : RMatrix) (k : Int) : Except String RMatrix :=
  let state := npRandomSeed 4355
  let n_iters := 10
  truncatedSVD_fit_transform solver state M k n_iters

/-- Solver returning all-zero entries, used to instantiate closed witness
statements (the claims hold for every solver). -/
def zeroSolver : Solver := fun _ _ _ _ _ _ => 0

/-- Concrete 2 × 2 all-zero matrix for witnesses. -/
def mat2 : RMatrix := RMatrix.mk 2 2 (fun _ _ => 0)

/-- Concrete 1 × 1 all-zero matrix for the `k = V` counterexample. -/
def mat1 : RMatrix := RMatrix.mk 1 1 (fun _ _ => 0)

/-- Position lookup in a strictly sorted list is the rank: the number of
elements strictly below the key. -/
lemma dictIdx_eq_rank {l : List String} (hsort : l.Sorted (· < ·))
    {s : String} (h : s ∈ l) :
    dictIdx l s = l.countP (fun t => decide (t < s)) := by
  induction l with
  | nil => cases h
  | cons w ws ih =>
    rw [dictIdx, List.countP_cons]
    have hws : ∀ t ∈ ws, w < t := fun t ht =>
      (List.pairwise_cons.mp hsort).1 t ht
    by_cases hs : s = w
    · rw [if_pos hs]
      have hzero : ws.countP (fun t => decide (t < s)) = 0 := by
        rw [List.countP_eq_zero]
        intro t ht
        simp only [decide_eq_true_eq]
        subst hs
        exact not_lt_of_gt (hws t ht)
      rw [hzero]
      simp [hs]
    · rw [if_neg hs]
      have hmem : s ∈ ws := by
        rcases List.mem_cons.mp h with h' | h'
        · exact absurd h' hs
        · exact h'
      have hw : w < s := hws s hmem
      rw [ih (List.pairwise_cons.mp hsort).2 hmem]
      simp [hw]

/-! ## Claims -/

/-- C1: for every corpus and every positive window radius `w`, entry
`(r, c)` of the matrix returned by `compute_co_occurrence_matrix` equals
the number of (document, center position `i`, context position `j`) triples
with the token at `i` of index `r`, the token at `j` of index `c`,
`j ∈ [i - w, i + w]`, `j ≠ i` and `0 ≤ j <` document length; windows never
extend across document boundaries and edge positions simply have fewer
neighbours. -/
theorem C1_entries_count_window_triples (corpus : List (List String))
    (w : Int) (hw : 0 < w) (r c : Nat) :
    (compute_co_occurrence_matrix corpus w).1 r c = coCount corpus w r c :=
  M_eq_coCount corpus w r c

/-- Witness for C1 at a concrete corpus: in `[["a", "b", "a"]]` with
window radius 1 the entry (index "a", index "b") counts the two adjacent
occurrences. -/
theorem C1_entries_count_window_triples_witness :
    (0 : Int) < 1
    ∧ (compute_co_occurrence_matrix [["a", "b", "a"]] 1).1 0 1
        = coCount [["a", "b", "a"]] 1 0 1 :=
  ⟨by decide,
    C1_entries_count_window_triples [["a", "b", "a"]] 1 (by decide) 0 1⟩

/-- C2: for every corpus and every window size `w ≥ 1`, the matrix returned
by `compute_co_occurrence_matrix` is symmetric. -/
theorem C2_matrix_symmetric (corpus : List (List String)) (w : Int)
    (hw : 1 ≤ w) (i j : Nat) :
    (compute_co_occurrence_matrix corpus w).1 i j
      = (compute_co_occurrence_matrix corpus w).1 j i := by
  rw [M_eq_coCount, M_eq_coCount, coCount, coCount]
  congr 1
  refine List.map_congr_left fun d _ => ?_
  exact docCoCount_symm _ d w i j

/-- Witness for C2 at a concrete corpus. -/
theorem C2_matrix_symmetric_witness :
    (compute_co_occurrence_matrix [["a", "b"]] 1).1 0 1
      = (compute_co_occurrence_matrix [["a", "b"]] 1).1 1 0 :=
  C2_matrix_symmetric [["a", "b"]] 1 (by decide) 0 1

/-- C3: for every corpus (empty corpora and empty documents included), the
token list returned by `distinct_words` has no duplicates, is sorted
strictly ascending under the codepoint-lexicographic order on strings,
contains exactly the tokens occurring somewhere in the corpus, and its
length equals the returned count. -/
theorem C3_distinct_words_sorted_nodup_complete
    (corpus : List (List String)) :
    (distinct_words corpus).1.Nodup
    ∧ (distinct_words corpus).1.Sorted (· < ·)
    ∧ (∀ s : String, s ∈ (distinct_words corpus).1 ↔ ∃ d ∈ corpus, s ∈ d)
    ∧ (distinct_words corpus).1.length = (distinct_words corpus).2 :=
  ⟨vocab_nodup corpus, vocab_sorted_lt corpus, fun _ => mem_vocab, rfl⟩

/-- C4: the `word2Ind` mapping returned by `compute_co_occurrence_matrix`
is a bijection from the distinct tokens onto `[0, V)`, assigning each token
its rank (the number of strictly smaller vocabulary tokens) in the sorted
vocabulary of `distinct_words`, and the vocabulary depends only on the set
of tokens of the corpus, not on traversal order. -/
theorem C4_word2Ind_sorted_rank_bijection (corpus : List (List String))
    (w : Int) :
    (∀ s ∈ (distinct_words corpus).1,
      (compute_co_occurrence_matrix corpus w).2 s < (distinct_words corpus).2)
    ∧ (∀ s ∈ (distinct_words corpus).1, ∀ t ∈ (distinct_words corpus).1,
        (compute_co_occurrence_matrix corpus w).2 s
          = (compute_co_occurrence_matrix corpus w).2 t → s = t)
    ∧ (∀ n : Nat, n < (distinct_words corpus).2 →
        ∃ s ∈ (distinct_words corpus).1,
          (compute_co_occurrence_matrix corpus w).2 s = n)
    ∧ (∀ s ∈ (distinct_words corpus).1,
        (compute_co_occurrence_matrix corpus w).2 s
          = (distinct_words corpus).1.countP (fun t => decide (t < s)))
    ∧ (∀ corpus₂ : List (List String),
        corpus₂.flatten.toFinset = corpus.flatten.toFinset →
          distinct_words corpus₂ = distinct_words corpus) := by
  refine ⟨fun s hs => dictIdx_lt_length hs,
    fun s hs t ht h => dictIdx_inj hs ht h,
    fun n hn => dictIdx_surj (vocab_nodup corpus) hn,
    fun s hs => dictIdx_eq_rank (vocab_sorted_lt corpus) hs,
    fun corpus₂ h => distinct_words_ext h.symm⟩

/-- Witness for C4 at concrete corpora: index bound for a member token, and
traversal-order independence for two corpora with the same token set. -/
theorem C4_word2Ind_sorted_rank_bijection_witness :
    (compute_co_occurrence_matrix [["b", "a"]] 4).2 "b"
        < (distinct_words [["b", "a"]]).2
    ∧ distinct_words [["a"], ["b", "b"]] = distinct_words [["b", "a"]] :=
  ⟨(C4_word2Ind_sorted_rank_bijection [["b", "a"]] 4).1 "b" (by decide),
    (C4_word2Ind_sorted_rank_bijection [["b", "a"]] 4).2.2.2.2
      [["a"], ["b", "b"]] (by decide)⟩

/-- C5 (amended): the claim is stated for every `0 < k ≤ V`, but sklearn
TruncatedSVD with its default randomized algorithm requires `n_components`
strictly less than the number of features, so `k = V` fails.  For every
`V × V` matrix and every `0 < k < V`, `reduce_to_k_dim` succeeds and
returns a matrix of shape exactly `(V, k)` whose rows follow the input rows
with no reindexing (the entries are the solver output at the same row
index). -/
theorem C5_amended_shape (solver : Solver) (s : RandomState) (M : RMatrix)
    (k : Int) (hsq : M.rows = M.cols) (h1 : 0 < k) (h2 : k < (M.cols : Int)) :
    reduce_to_k_dim solver s M k
      = Except.ok (RMatrix.mk M.rows k.toNat
          (solver (npRandomSeed 4355) M k.toNat 10)) := by
  simp only [reduce_to_k_dim, truncatedSVD_fit_transform]
  rw [if_neg (by omega), if_neg (by omega)]

/-- Witness for C5 (amended) on a concrete 2 × 2 matrix with `k = 1`. -/
theorem C5_amended_shape_witness :
    reduce_to_k_dim zeroSolver (RandomState.mk 0) mat2 1
      = Except.ok (RMatrix.mk 2 1 (zeroSolver (npRandomSeed 4355) mat2 1 10)) :=
  C5_amended_shape zeroSolver (RandomState.mk 0) mat2 1 rfl (by decide)
    (by decide)

/-- Counterexample to C5 as stated: on a `1 × 1` input with `k = V = 1`
(which satisfies `0 < k ≤ V`), the reduction does not succeed — fitting
fails with the invalid-parameter error of TruncatedSVD. -/
theorem C5_counterexample_k_eq_V :
    reduce_to_k_dim zeroSolver (RandomState.mk 0) mat1 1
      = Except.error "n_components must be strictly less than n_features" :=
  rfl

/-- C6: for every `V × V` input, an invalid `k` (`k ≤ 0` or `k > V`) makes
`reduce_to_k_dim` signal an invalid-parameter failure rather than return a
result. -/
theorem C6_invalid_k_rejected (solver : Solver) (s : RandomState)
    (M : RMatrix) (k : Int) (hsq : M.rows = M.cols)
    (hk : k ≤ 0 ∨ (M.cols : Int) < k) :
    ∃ msg : String, reduce_to_k_dim solver s M k = Except.error msg := by
  simp only [reduce_to_k_dim, truncatedSVD_fit_transform]
  rcases hk with h | h
  · rw [if_pos (by omega)]
    exact ⟨_, rfl⟩
  · rw [if_neg (by omega), if_pos (by omega)]
    exact ⟨_, rfl⟩

/-- Witness for C6: `k = 0` on a concrete 2 × 2 matrix is rejected. -/
theorem C6_invalid_k_rejected_witness :
    ∃ msg : String, reduce_to_k_dim zeroSolver (RandomState.mk 0) mat2 0
      = Except.error msg :=
  C6_invalid_k_rejected zeroSolver (RandomState.mk 0) mat2 0 rfl
    (Or.inl (by decide))

/-- C7 (amended): `compute_co_occurrence_matrix` performs no window-size
validation; with a zero or negative window size it silently returns the
all-zero matrix (the offset range minus the excluded center is empty), it
does not signal an invalid-parameter failure. -/
theorem C7_amended_nonpositive_window_yields_zero_matrix
    (corpus : List (List String)) (w : Int) (hw : w ≤ 0) (r c : Nat) :
    (compute_co_occurrence_matrix corpus w).1 r c = 0 := by
  rw [M_eq_coCount, coCount]
  apply List.sum_eq_zero
  intro x hx
  obtain ⟨d, _, rfl⟩ := List.mem_map.mp hx
  exact docCoCount_of_nonpos _ d hw r c

/-- Witness for C7 (amended) at a concrete corpus and window size `-2`. -/
theorem C7_amended_nonpositive_window_yields_zero_matrix_witness :
    ((-2 : Int) ≤ 0)
    ∧ (compute_co_occurrence_matrix [["a", "b"]] (-2)).1 0 1 = 0 :=
  ⟨by decide, C7_amended_nonpositive_window_yields_zero_matrix [["a", "b"]]
    (-2) (by decide) 0 1⟩

/-- Counterexample to C7 as stated: with window size `0` (and `-1`) on the
two-token document `["a", "b"]` the function returns normally — an
all-zero matrix — instead of signalling a failure; with window size `1`
the same corpus produces count 1, confirming the zero is the silent
degenerate result, not an error. -/
theorem C7_counterexample_no_validation :
    (compute_co_occurrence_matrix [["a", "b"]] 0).1 0 1 = 0
    ∧ (compute_co_occurrence_matrix [["a", "b"]] (-1)).1 0 1 = 0
    ∧ (compute_co_occurrence_matrix [["a", "b"]] 1).1 0 1 = 1 :=
  ⟨by decide, by decide, by decide⟩

/-- C8: because the vocabulary is always derived internally from the same
corpus via `distinct_words`, every dict lookup performed during
accumulation succeeds: the token at every in-bounds position of every
document of the corpus is a key of `word2Ind`, so the lookup-failure
branch is unreachable. -/
theorem C8_lookup_never_fails (corpus : List (List String))
    (sentence : List String) (hs : sentence ∈ corpus) (i : Nat)
    (hi : i < sentence.length) :
    (dictIdx? (distinct_words corpus).1 (sentence.getD i "")).isSome
      = true := by
  rw [dictIdx?_isSome_iff, mem_vocab]
  exact ⟨sentence, hs, getD_mem_of_lt hi⟩

/-- Witness for C8 at a concrete corpus, document and position. -/
theorem C8_lookup_never_fails_witness :
    (dictIdx? (distinct_words [["a", "b"]]).1 (["a", "b"].getD 1 "")).isSome
      = true :=
  C8_lookup_never_fails [["a", "b"]] ["a", "b"] (by decide) 1 (by decide)

/-- C9: `reduce_to_k_dim` reseeds the global RNG with the fixed seed 4355
on every call before fitting, so two invocations with the same matrix and
the same `k` — whatever the incoming global RNG states — yield identical
outputs, for every solver. -/
theorem C9_reduce_deterministic (solver : Solver) (s₁ s₂ : RandomState)
    (M : RMatrix) (k : Int) :
    reduce_to_k_dim solver s₁ M k = reduce_to_k_dim solver s₂ M k := rfl

/-- C10: every diagonal entry of the returned matrix is even: the window
relation is symmetric and irreflexive, so the pairs of distinct positions
holding the same token come in mirrored couples, each contributing 2. -/
theorem C10_diagonal_even (corpus : List (List String)) (w : Int)
    (hw : 1 ≤ w) (i : Nat) :
    Even ((compute_co_occurrence_matrix corpus w).1 i i) := by
  rw [M_eq_coCount, coCount]
  apply even_list_sum
  intro x hx
  obtain ⟨d, _, rfl⟩ := List.mem_map.mp hx
  exact docCoCount_diag_even _ d w i

/-- Witness for C10: a repeated token within the window produces the even
diagonal entry 2. -/
theorem C10_diagonal_even_witness :
    Even ((compute_co_occurrence_matrix [["a", "a"]] 1).1 0 0)
    ∧ (compute_co_occurrence_matrix [["a", "a"]] 1).1 0 0 = 2 :=
  ⟨C10_diagonal_even [["a", "a"]] 1 (by decide) 0, by decide⟩

end CoOcc
